import Mathlib

/-!
Verification of the selection-and-state subsystem of the weatherMan repository.

The development shallowly embeds the relevant Python source:
  * `src/config.py`        — candidate (city) data model;
  * `src/scheduler.py`     — weighted selection without replacement and
                             posting-time distribution;
  * `src/state_manager.py` — persisted daily schedule and its operations.

Conventions of the embedding:
  * `random.random()` is modelled as an injectable stream `u : Nat → ℚ` of
    values in `[0, 1)` (spec §9 prescribes exactly this abstraction);
  * instants are integers (seconds on the UTC epoch scale); ISO-8601
    timestamp strings are abstracted as the instants they denote;
  * Python floats are modelled exactly: `rnd53` is round-to-nearest-even at
    53 significand bits over ℚ (normal range, which covers every value the
    scheduler computes), and `fl_div`/`fl_mul`/`fl_sub` are the correctly
    rounded IEEE-754 binary64 operations built from it;
  * raising code is embedded with `Except`/`Option` results.
-/

set_option autoImplicit false

/-! ## Data model (`src/config.py`)

`CityConfig` keeps the fields the selection-and-state subsystem reads
(`id`, `weight`, `enabled`); presentation-only fields (name, country,
coordinates, platform flags, ...) are omitted as they are never read by the
embedded operations.  `Config.cities` lists the values of the id-keyed
`cities` dict in insertion order; dict keys are unique, so the ids of the
listed cities are pairwise distinct (stated as a hypothesis where needed). -/

structure CityConfig where
  id : String
  weight : Int
  enabled : Bool
deriving DecidableEq

structure Config where
  cities : List CityConfig
deriving DecidableEq

/-- `Config.get_enabled_cities`: all cities with `enabled` set. -/
def Config.get_enabled_cities (c : Config) : List CityConfig :=
  c.cities.filter (·.enabled)

/-! ## Exact model of IEEE-754 binary64 arithmetic

`calculate_posting_times` computes with Python floats.  The model rounds a
rational to the nearest double (ties to even) assuming the normal range;
every quantity occurring in the scheduler lies well inside it. -/

/-- `2 ^ e` for an integer exponent, as a rational. -/
def pow2z (e : Int) : ℚ :=
  if 0 ≤ e then ((2 : ℚ) ^ e.toNat) else 1 / ((2 : ℚ) ^ (-e).toNat)

/-- Fuel-driven binary logarithm on `Nat` (kernel-reducible; fuel `n` always
suffices because the argument halves each step). -/
def log2fuel : Nat → Nat → Nat
  | 0, _ => 0
  | fuel + 1, n => if n ≥ 2 then log2fuel fuel (n / 2) + 1 else 0

/-- `nlog2 n` is `⌊log₂ n⌋` for `n ≥ 1`. -/
def nlog2 (n : Nat) : Nat := log2fuel n n

/-- For `q > 0`, the exponent `e` with `2 ^ e ≤ q < 2 ^ (e + 1)`. -/
def ilog2q (q : ℚ) : Int :=
  let e0 : Int := (nlog2 q.num.toNat : Int) - (nlog2 q.den : Int)
  if q < pow2z e0 then e0 - 1
  else if pow2z (e0 + 1) ≤ q then e0 + 1
  else e0

/-- Floor of a rational as an integer (the denominator is positive). -/
def ratFloor (q : ℚ) : Int := Int.fdiv q.num (q.den : Int)

/-- Truncation toward zero, the semantics of Python `int()` on a float. -/
def ratTrunc (q : ℚ) : Int := Int.tdiv q.num (q.den : Int)

/-- Round a rational to the nearest integer, ties to even. -/
def roundHalfEven (x : ℚ) : Int :=
  let n := ratFloor x
  let r := x - (n : ℚ)
  if r < 1 / 2 then n
  else if 1 / 2 < r then n + 1
  else if n % 2 = 0 then n else n + 1

/-- Round a rational to the nearest IEEE-754 binary64 value (normal range). -/
def rnd53 (q : ℚ) : ℚ :=
  if q = 0 then 0
  else
    let a := if 0 < q then q else -q
    let e := ilog2q a
    let m := roundHalfEven (a * pow2z (52 - e))
    if 0 < q then (m : ℚ) * pow2z (e - 52) else -((m : ℚ) * pow2z (e - 52))

/-- Correctly rounded binary64 division. -/
def fl_div (a b : ℚ) : ℚ := rnd53 (a / b)

/-- Correctly rounded binary64 multiplication. -/
def fl_mul (a b : ℚ) : ℚ := rnd53 (a * b)

/-- Correctly rounded binary64 subtraction. -/
def fl_sub (a b : ℚ) : ℚ := rnd53 (a - b)

/-! ## Posting-time distribution (`src/scheduler.py`, `calculate_posting_times`) -/

/-- Offset from midnight UTC, in whole minutes, assigned to index `i` out of
`n` cities, following the source:
`interval_hours = 24.0 / n`; `hours_offset = i * interval_hours` (float);
`hours = int(hours_offset)`; `minutes = int((hours_offset - hours) * 60)`;
the posting time is `midnight + timedelta(hours=hours, minutes=minutes)`. -/
def postingOffsetMinutes (n : Nat) (i : Nat) : Int :=
  let interval_hours := fl_div 24 (n : ℚ)
  let hours_offset := fl_mul (i : ℚ) interval_hours
  let hours := ratTrunc hours_offset
  let minutes := ratTrunc (fl_mul (fl_sub hours_offset (hours : ℚ)) 60)
  hours * 60 + minutes

/-- `calculate_posting_times`: map each selected city id, in order, to its
posting offset from midnight UTC in minutes (the dict built by the source,
as an association list in insertion order). -/
def calculate_posting_times (selected_cities : List CityConfig) : List (String × Int) :=
  if selected_cities.isEmpty then []
  else selected_cities.enum.map
    (fun p => (p.2.id, postingOffsetMinutes selected_cities.length p.1))

/-- The claim formula, stated from the spec for comparison with the source
computation: the i-th instant is `midnight + i * (24h / N)` rounded down to
whole minutes, i.e. `⌊i * 1440 / N⌋` minutes past midnight. -/
def specPostingMinutes (n i : Nat) : Int :=
  ratFloor ((i : ℚ) * 1440 / (n : ℚ))


/-! ## Weighted selection (`src/scheduler.py`, `select_daily_cities`)

`random.choices(remaining, weights=w, k=1)` computes the running sums of the
weights, draws `x = random() * total`, and locates the chosen index with
`bisect.bisect_right(cum_weights, x, 0, n - 1)`; an empty population raises
`IndexError` at `cum_weights[-1]`, and a non-positive total raises
`ValueError`.  The random source is the injected stream `u`. -/

/-- Running sums of a list of weights (`itertools.accumulate`). -/
def accumulate : List Int → Int → List Int
  | [], _ => []
  | w :: ws, acc => (acc + w) :: accumulate ws (acc + w)

/-- `cum_weights = list(accumulate(weights))`. -/
def cumWeights (ws : List Int) : List Int := accumulate ws 0

/-- Fuel-driven `bisect.bisect_right(a, x, lo, hi)`.  The source loop runs
`while lo < hi`, halving `hi - lo` each iteration, so fuel `hi - lo` always
suffices (structural recursion keeps the definition kernel-reducible). -/
def bisectGo : Nat → List Int → ℚ → Nat → Nat → Nat
  | 0, _, _, lo, _ => lo
  | fuel + 1, a, x, lo, hi =>
    if lo < hi then
      if x < ((a.getD ((lo + hi) / 2) 0 : Int) : ℚ) then
        bisectGo fuel a x lo ((lo + hi) / 2)
      else
        bisectGo fuel a x ((lo + hi) / 2 + 1) hi
    else lo

/-- `bisect.bisect_right(a, x, lo, hi)`. -/
def bisectRight (a : List Int) (x : ℚ) (lo hi : Nat) : Nat :=
  bisectGo (hi - lo) a x lo hi

/-- The index drawn by `random.choices(population, weights=ws, k=1)[0]` when
the unit-interval random value is `u`, including the error behaviour of the
library call. -/
def choicesIndex (ws : List Int) (u : ℚ) : Except String Nat :=
  if ws.isEmpty then .error "list index out of range"
  else
    let cum := cumWeights ws
    let total : Int := cum.getLastD 0
    if total ≤ 0 then .error "Total of weights must be greater than zero"
    else .ok (bisectRight cum (u * (total : ℚ)) 0 (ws.length - 1))

/-- A placeholder `CityConfig` for the (unreachable) out-of-range list read. -/
def defaultCity : CityConfig := { id := "", weight := 0, enabled := false }

/-- The selection loop of `select_daily_cities`: repeat `num_cities` times:
draw one city from the remaining pool by weighted choice, append it, find its
first occurrence with `remaining_cities.index(chosen)` and pop that index
from both the remaining pool and the remaining weights. -/
def select_daily_cities_go :
    Nat → List CityConfig → List Int → (Nat → ℚ) → Nat → Except String (List CityConfig)
  | 0, _, _, _, _ => .ok []
  | k + 1, pool, ws, u, j =>
    match choicesIndex ws (u j) with
    | .error e => .error e
    | .ok i =>
      let chosen := pool.getD i defaultCity
      let idx := pool.findIdx (fun c => decide (c = chosen))
      match select_daily_cities_go k (pool.eraseIdx idx) (ws.eraseIdx idx) u (j + 1) with
      | .error e => .error e
      | .ok rest => .ok (chosen :: rest)

/-- `select_daily_cities(config, num_cities)` with the random source made
explicit: raises `ValueError` when fewer enabled cities than `num_cities`
are available, otherwise performs weighted random sampling without
replacement over the enabled cities. -/
def select_daily_cities (config : Config) (num_cities : Nat) (u : Nat → ℚ) :
    Except String (List CityConfig) :=
  let enabled_cities := config.get_enabled_cities
  if enabled_cities.length < num_cities then
    .error "Cannot select cities: not enough enabled cities available"
  else
    select_daily_cities_go num_cities enabled_cities
      (enabled_cities.map (·.weight)) u 0

/-! ## State management (`src/state_manager.py`)

A `datetime` value is modelled by the absolute instant it denotes (seconds,
UTC epoch scale — per §2 of the spec all schedule times are UTC) together
with its timezone-awareness flag; `replace(tzinfo=timezone.utc)` interprets
the same clock fields as UTC, so on this model it only sets the flag. -/

structure Datetime where
  ts : Int
  aware : Bool
deriving DecidableEq

/-- `dt.replace(tzinfo=timezone.utc)` applied when `dt.tzinfo is None`. -/
def Datetime.normalizeUtc (d : Datetime) : Datetime :=
  if d.aware then d else { d with aware := true }

/-- One element of `DailySchedule.selected_cities`; per design note §9 the
dict-shaped record is abstracted as a typed record (the `posted` key is
defaulted to `False` where absent, matching `city_entry.get("posted", False)`).
`posting_time_utc` holds the instant denoted by the stored ISO-8601 string
(`datetime.fromisoformat` of the stored text). -/
structure ScheduleEntry where
  city_id : String
  posting_time_utc : Datetime
  posted : Bool
deriving DecidableEq

structure DailySchedule where
  date : String
  selected_cities : List ScheduleEntry
  generation_timestamp : String
deriving DecidableEq

/-- `DailySchedule.is_current_day`, with the current UTC date string made an
explicit argument. -/
def DailySchedule.is_current_day (s : DailySchedule) (today_utc : String) : Bool :=
  s.date == today_utc

/-- The entry loop of `needs_posting`: the first entry whose `city_id`
matches decides the answer (the source returns from inside the loop); a city
absent from the list yields `False`. -/
def needsPostingEntries :
    List ScheduleEntry → String → Datetime → Int → Bool
  | [], _, _, _ => false
  | e :: es, cid, t, tol =>
    if e.city_id == cid then
      if e.posted then false
      else
        let current := t.normalizeUtc
        let posting := e.posting_time_utc.normalizeUtc
        decide (|((current.ts - posting.ts : Int) : ℚ)| / 60 ≤ (tol : ℚ))
    else needsPostingEntries es cid t tol

/-- `DailySchedule.needs_posting(city_id, current_time, tolerance_minutes)`. -/
def DailySchedule.needs_posting (s : DailySchedule) (city_id : String)
    (current_time : Datetime) (tolerance_minutes : Int) : Bool :=
  needsPostingEntries s.selected_cities city_id current_time tolerance_minutes

/-- The entry loop of `mark_posted`: set `posted` on the first entry whose
`city_id` matches (the source returns immediately after). -/
def markPostedEntries : List ScheduleEntry → String → List ScheduleEntry
  | [], _ => []
  | e :: es, cid =>
    if e.city_id == cid then { e with posted := true } :: es
    else e :: markPostedEntries es cid

/-- `DailySchedule.mark_posted(city_id)`. -/
def DailySchedule.mark_posted (s : DailySchedule) (city_id : String) : DailySchedule :=
  { s with selected_cities := markPostedEntries s.selected_cities city_id }

/-! ### Persistence (`StateManager`)

The JSON text of the state file is abstracted as a `JVal` tree (ISO-8601
timestamp strings abstracted as the instants they denote, see above);
`LoadInput` is the outcome of `os.path.exists` + `open` + `json.load`. -/

inductive JVal where
  | str (s : String)
  | num (n : Int)
  | boolean (b : Bool)
  | arr (xs : List JVal)
  | obj (fields : List (String × JVal))

inductive LoadInput where
  | missing
  | invalidJson
  | parsed (j : JVal)

/-- Dict lookup (`KeyError` surfaces as `none`). -/
def jlookup : List (String × JVal) → String → Option JVal
  | [], _ => none
  | (k, v) :: rest, key => if k == key then some v else jlookup rest key

/-- Deserialize one `selected_cities` element into the typed record
(design note §9: shape validated once at deserialization; a missing
`posted` key defaults to `False`). -/
def parseEntry (j : JVal) : Option ScheduleEntry :=
  match j with
  | JVal.obj fields =>
    match jlookup fields "city_id", jlookup fields "posting_time_utc" with
    | some (JVal.str cid), some (JVal.num ts) =>
      let posted := match jlookup fields "posted" with
        | some (JVal.boolean b) => b
        | _ => false
      some { city_id := cid, posting_time_utc := { ts := ts, aware := true }, posted := posted }
    | _, _ => none
  | _ => none

/-- `StateManager.load_schedule`.  The `try` block catches only
`JSONDecodeError`/`KeyError`/`IOError`, so: a missing file and undecodable
content return `None`; an object lacking one of the three keys returns
`None` (caught `KeyError`); but content whose top-level JSON value is not
an object — e.g. `[]`, `null`, a string or a number — reaches
`data["date"]`, whose subscript raises an uncaught `TypeError`, modelled as
the `.error` result.  An object whose present values fall outside the typed
schema is treated as absent state (design note §9): the source would build
a `DailySchedule` carrying those raw values without raising, and on every
path of this program such a schedule is regenerated on the next access
exactly as a `None` return is (its `date` is compared against today's date
string). -/
def load_schedule : LoadInput → Except String (Option DailySchedule)
  | LoadInput.missing => .ok none
  | LoadInput.invalidJson => .ok none
  | LoadInput.parsed (JVal.obj fields) =>
    match jlookup fields "date", jlookup fields "selected_cities",
        jlookup fields "generation_timestamp" with
    | some (JVal.str d), some (JVal.arr xs), some (JVal.str g) =>
      match xs.mapM parseEntry with
      | some entries =>
        .ok (some { date := d, selected_cities := entries, generation_timestamp := g })
      | none => .ok none
    | _, _, _ => .ok none
  | LoadInput.parsed _ => .error "TypeError"

/-- `StateManager.save_schedule`: on an `IOError` during the write the
error is logged and re-raised; otherwise the schedule is written. -/
def save_schedule (write_ok : Bool) (_schedule : DailySchedule) : Except String Unit :=
  if write_ok then .ok () else .error "IOError"

/-- Python dict lookup on the assoc list built by `calculate_posting_times`
(a later binding for the same key overwrites an earlier one). -/
def dictGetD (l : List (String × Int)) (k : String) (d : Int) : Int :=
  match l with
  | [] => d
  | (k2, v) :: rest => dictGetD rest k (if k2 == k then v else d)

/-- The schedule-generation branch of `get_or_create_schedule`: select six
cities, compute their posting times, build the entries with `posted=False`,
save, and return the new schedule.  `today_date`/`now_iso` are the current
UTC date and generation timestamp, `midnight_ts` the instant of today
00:00:00 UTC; the second component of the result is the schedule written to
disk. -/
def generate_schedule (config : Config) (today_date now_iso : String)
    (midnight_ts : Int) (u : Nat → ℚ) (write_ok : Bool) :
    Except String (DailySchedule × Option DailySchedule) :=
  match select_daily_cities config 6 u with
  | .error e => .error e
  | .ok selected =>
    let posting_times := calculate_posting_times selected
    let entries := selected.map (fun c =>
      ({ city_id := c.id,
         posting_time_utc := { ts := midnight_ts + 60 * dictGetD posting_times c.id 0, aware := true },
         posted := false } : ScheduleEntry))
    let new_schedule : DailySchedule :=
      { date := today_date, selected_cities := entries, generation_timestamp := now_iso }
    match save_schedule write_ok new_schedule with
    | .error e => .error e
    | .ok _ => .ok (new_schedule, some new_schedule)

/-- `StateManager.get_or_create_schedule`: return the loaded schedule
unchanged when it exists and is for today (no re-selection, no write,
second component `none`); otherwise generate, save and return a fresh
schedule. -/
def get_or_create_schedule (input : LoadInput) (config : Config)
    (today_date now_iso : String) (midnight_ts : Int) (u : Nat → ℚ)
    (write_ok : Bool) : Except String (DailySchedule × Option DailySchedule) :=
  match load_schedule input with
  | .error e => .error e
  | .ok (some schedule) =>
    if schedule.is_current_day today_date then .ok (schedule, none)
    else generate_schedule config today_date now_iso midnight_ts u write_ok
  | .ok none => generate_schedule config today_date now_iso midnight_ts u write_ok

/-! ## RecencyTracker (spec §4.3) and the single-pick mode (spec §4.1)

The repository sources under `src/` contain no RecencyTracker and no
single-pick selection path; both are specified in §4.1/§4.3 and are
modelled here from the spec text. -/

/-- Modelled from the spec: a `PostedRecord` (§3) — city identifier plus
UTC timestamp of a successful post; the identifier-bearing record pruned by
the retention window.  Not present under `src/`. -/
structure PostedRecord where
  city_id : String
  posted_at : Int
deriving DecidableEq

/-- Modelled from the spec: `cleanup_old(retention_hours=24)` (§4.3) —
"removes every record whose timestamp is older than `now_utc −
retention_hours`; returns count removed".  Not present under `src/`.
Returns the retained records together with the removed count. -/
def cleanup_old (records : List PostedRecord) (now_utc : Int)
    (retention_hours : Int) : List PostedRecord × Nat :=
  let cutoff := now_utc - retention_hours * 3600
  (records.filter (fun r => !decide (r.posted_at < cutoff)),
   (records.filter (fun r => decide (r.posted_at < cutoff))).length)

/-- Modelled from the spec: `get_excluded_ids()` (§4.3) — "returns the
identifiers of all currently retained records" (duplicates allowed).  Not
present under `src/`. -/
def get_excluded_ids (records : List PostedRecord) : List String :=
  records.map (·.city_id)

/-- Modelled from the spec: the single-pick (`k=1`) live selection mode
(§4.1/§8) — filter the enabled pool by the exclusion list; "if the filtered
candidate pool (enabled minus excluded) is empty, the caller must fall back
to the full enabled pool"; then draw one candidate by weighted choice.  Not
present under `src/`. -/
def select_single_city (enabled : List CityConfig) (excluded : List String)
    (u : ℚ) : Option CityConfig :=
  let filtered := enabled.filter (fun c => !excluded.contains c.id)
  let pool := if filtered.isEmpty then enabled else filtered
  match choicesIndex (pool.map (·.weight)) u with
  | .error _ => none
  | .ok i => some (pool.getD i defaultCity)


/-! ## Concrete fixtures (used by witnesses and counterexamples) -/

def fiveCities : List CityConfig :=
  [{ id := "tokyo", weight := 10, enabled := true },
   { id := "paris", weight := 10, enabled := true },
   { id := "london", weight := 10, enabled := true },
   { id := "nyc", weight := 10, enabled := true },
   { id := "sydney", weight := 10, enabled := true }]

def demoConfig : Config :=
  { cities :=
      [{ id := "tokyo", weight := 50, enabled := true },
       { id := "paris", weight := 30, enabled := true },
       { id := "oslo", weight := 20, enabled := true }] }

def zeroWeightConfig : Config :=
  { cities :=
      [{ id := "a", weight := 5, enabled := true },
       { id := "b", weight := 0, enabled := true }] }

def negWeightConfig : Config :=
  { cities :=
      [{ id := "a", weight := 5, enabled := true },
       { id := "b", weight := -5, enabled := true }] }

def parisEntry : ScheduleEntry :=
  { city_id := "paris", posting_time_utc := { ts := 50400, aware := true }, posted := false }

def demoSchedule : DailySchedule :=
  { date := "2026-10-12", selected_cities := [parisEntry], generation_timestamp := "g" }

def demoJson : JVal :=
  JVal.obj
    [("date", JVal.str "2026-10-12"),
     ("selected_cities", JVal.arr
        [JVal.obj [("city_id", JVal.str "paris"), ("posting_time_utc", JVal.num 50400),
                   ("posted", JVal.boolean false)]]),
     ("generation_timestamp", JVal.str "g")]

def demoRecords : List PostedRecord :=
  [{ city_id := "tokyo", posted_at := 1000 }, { city_id := "paris", posted_at := 50000 }]


/-! ## Helper lemmas -/

theorem accumulate_length (ws : List Int) : ∀ acc, (accumulate ws acc).length = ws.length := by
  induction ws with
  | nil => intro acc; rfl
  | cons w ws ih => intro acc; simpa [accumulate] using ih (acc + w)

theorem accumulate_getD (ws : List Int) :
    ∀ acc i, i < ws.length →
      (accumulate ws acc).getD i 0 = acc + (ws.take (i + 1)).sum := by
  induction ws with
  | nil => intro acc i h; simp at h
  | cons w ws ih =>
    intro acc i h
    cases i with
    | zero => simp [accumulate]
    | succ i =>
      have := ih (acc + w) i (by simpa using h)
      simpa [accumulate, add_assoc] using this

theorem getLastD_eq_getD (l : List Int) (h : l ≠ []) :
    l.getLastD 0 = l.getD (l.length - 1) 0 := by
  induction l with
  | nil => exact absurd rfl h
  | cons a l ih =>
    cases l with
    | nil => rfl
    | cons b l => simpa [List.getLastD_cons] using ih (by simp)

theorem accumulate_getLastD (ws : List Int) (h : ws ≠ []) :
    ∀ acc, (accumulate ws acc).getLastD 0 = acc + ws.sum := by
  intro acc
  have hlen : (accumulate ws acc).length = ws.length := accumulate_length ws acc
  have hne : accumulate ws acc ≠ [] := by
    intro hcon
    apply h
    have := accumulate_length ws acc
    rw [hcon] at this
    simpa using (List.length_eq_zero.mp this.symm)
  rw [getLastD_eq_getD _ hne, hlen]
  have hlt : ws.length - 1 < ws.length :=
    Nat.sub_lt (List.length_pos.mpr h) (by decide)
  rw [accumulate_getD ws acc _ hlt]
  congr 1
  rw [Nat.sub_add_cancel (Nat.one_le_iff_ne_zero.mpr (by simpa using h))]
  simp

theorem sum_take_mono (ws : List Int) (hw : ∀ w ∈ ws, 0 ≤ w) :
    ∀ i j, i ≤ j → (ws.take i).sum ≤ (ws.take j).sum := by
  have step : ∀ n, (ws.take n).sum ≤ (ws.take (n + 1)).sum := by
    intro n
    by_cases hn : n < ws.length
    · rw [List.sum_take_succ ws n hn]
      have := hw ws[n] (ws.getElem_mem hn)
      omega
    · rw [List.take_of_length_le (by omega), List.take_of_length_le (by omega)]
  intro i j hij
  induction j with
  | zero => simp [Nat.le_zero.mp hij]
  | succ j ih =>
    rcases Nat.lt_or_ge i (j + 1) with hlt | hge
    · exact le_trans (ih (by omega)) (step j)
    · have : i = j + 1 := by omega
      simp [this]

theorem sum_take_nonneg (ws : List Int) (hw : ∀ w ∈ ws, 0 ≤ w) (i : Nat) :
    0 ≤ (ws.take i).sum := by
  simpa using sum_take_mono ws hw 0 i (Nat.zero_le i)

theorem sum_pos_of_exists (ws : List Int) (hw : ∀ w ∈ ws, 0 ≤ w)
    (hex : ∃ w ∈ ws, 0 < w) : 0 < ws.sum := by
  induction ws with
  | nil => rcases hex with ⟨w, hw0, _⟩; simp at hw0
  | cons a ws ih =>
    rcases hex with ⟨w, hmem, hwpos⟩
    rcases List.mem_cons.mp hmem with rfl | hmem2
    · have : 0 ≤ ws.sum := List.sum_nonneg (fun x hx => hw x (List.mem_cons_of_mem _ hx))
      simp only [List.sum_cons]
      omega
    · have h1 : 0 < ws.sum := ih (fun x hx => hw x (List.mem_cons_of_mem _ hx)) ⟨w, hmem2, hwpos⟩
      have h2 : 0 ≤ a := hw a (List.mem_cons_self _ _)
      simp only [List.sum_cons]
      omega

theorem map_eraseIdx {α β : Type} (f : α → β) :
    ∀ (l : List α) (i : Nat), (l.eraseIdx i).map f = (l.map f).eraseIdx i := by
  intro l
  induction l with
  | nil => intro i; rfl
  | cons a l ih =>
    intro i
    cases i with
    | zero => rfl
    | succ i => simp [ih i]

theorem getD_eq_getElem {α : Type} (l : List α) (i : Nat) (d : α) (h : i < l.length) :
    l.getD i d = l[i] := by
  simp [List.getD_eq_getElem?_getD, List.getElem?_eq_getElem h]

theorem not_mem_eraseIdx_of_nodup {α : Type} :
    ∀ (l : List α), l.Nodup → ∀ i, (h : i < l.length) → l[i] ∉ l.eraseIdx i := by
  intro l
  induction l with
  | nil => intro _ i h; simp at h
  | cons a l ih =>
    intro hnd i h
    cases i with
    | zero =>
      simpa using (List.nodup_cons.mp hnd).1
    | succ i =>
      have hlt : i < l.length := by simpa using h
      intro hmem
      simp only [List.eraseIdx_cons_succ, List.getElem_cons_succ] at hmem
      rcases List.mem_cons.mp hmem with heq | hmem2
      · exact (List.nodup_cons.mp hnd).1 (heq ▸ l.getElem_mem hlt)
      · exact ih (List.nodup_cons.mp hnd).2 i hlt hmem2

theorem filter_length_eraseIdx {α : Type} (p : α → Bool) :
    ∀ (l : List α) (i : Nat),
      (l.filter p).length ≤ ((l.eraseIdx i).filter p).length + 1 := by
  intro l
  induction l with
  | nil => intro i; simp
  | cons a l ih =>
    intro i
    cases i with
    | zero =>
      by_cases h : p a <;> simp [List.filter_cons, h]
    | succ i =>
      by_cases h : p a <;> simp only [List.eraseIdx_cons_succ, List.filter_cons, h] <;>
        simpa using ih i

/-! ### Bisect lemmas -/

theorem bisectGo_bounds (a : List Int) (x : ℚ) :
    ∀ fuel lo hi, lo ≤ hi →
      lo ≤ bisectGo fuel a x lo hi ∧ bisectGo fuel a x lo hi ≤ hi := by
  intro fuel
  induction fuel with
  | zero => intro lo hi h; exact ⟨Nat.le_refl lo, h⟩
  | succ fuel ih =>
    intro lo hi h
    simp only [bisectGo]
    by_cases hlt : lo < hi
    · simp only [if_pos hlt]
      by_cases hx : x < ((a.getD ((lo + hi) / 2) 0 : Int) : ℚ)
      · simp only [if_pos hx]
        have hmid : lo ≤ (lo + hi) / 2 := by omega
        have := ih lo ((lo + hi) / 2) hmid
        exact ⟨this.1, le_trans this.2 (by omega)⟩
      · simp only [if_neg hx]
        have hmid : (lo + hi) / 2 + 1 ≤ hi := by omega
        have := ih ((lo + hi) / 2 + 1) hi hmid
        exact ⟨le_trans (by omega) this.1, this.2⟩
    · simp only [if_neg hlt]
      exact ⟨Nat.le_refl lo, h⟩

theorem bisectGo_sorted_spec (a : List Int) (x : ℚ)
    (hmono : ∀ i j, i ≤ j → j < a.length → a.getD i 0 ≤ a.getD j 0) :
    ∀ fuel lo hi, hi - lo ≤ fuel → lo ≤ hi → hi < a.length →
      (∀ j, j < lo → ((a.getD j 0 : Int) : ℚ) ≤ x) →
      x < ((a.getD hi 0 : Int) : ℚ) →
      (∀ j, j < bisectGo fuel a x lo hi → ((a.getD j 0 : Int) : ℚ) ≤ x) ∧
        x < ((a.getD (bisectGo fuel a x lo hi) 0 : Int) : ℚ) := by
  intro fuel
  induction fuel with
  | zero =>
    intro lo hi hfuel hle hlen hinv hhi
    have : hi = lo := by omega
    subst this
    exact ⟨hinv, hhi⟩
  | succ fuel ih =>
    intro lo hi hfuel hle hlen hinv hhi
    simp only [bisectGo]
    by_cases hlt : lo < hi
    · simp only [if_pos hlt]
      by_cases hx : x < ((a.getD ((lo + hi) / 2) 0 : Int) : ℚ)
      · simp only [if_pos hx]
        exact ih lo ((lo + hi) / 2) (by omega) (by omega) (by omega) hinv hx
      · simp only [if_neg hx]
        push_neg at hx
        refine ih ((lo + hi) / 2 + 1) hi (by omega) (by omega) hlen ?_ hhi
        intro j hj
        have hjm : j ≤ (lo + hi) / 2 := by omega
        have : (a.getD j 0 : Int) ≤ a.getD ((lo + hi) / 2) 0 :=
          hmono j ((lo + hi) / 2) hjm (by omega)
        calc ((a.getD j 0 : Int) : ℚ) ≤ ((a.getD ((lo + hi) / 2) 0 : Int) : ℚ) := by
              exact_mod_cast this
          _ ≤ x := hx
    · simp only [if_neg hlt]
      have : hi = lo := by omega
      subst this
      exact ⟨hinv, hhi⟩


/-! ### `choicesIndex` lemmas -/

theorem choicesIndex_ok (ws : List Int) (u : ℚ) (hne : ws ≠ [])
    (hsum : 0 < ws.sum) :
    ∃ i, choicesIndex ws u = .ok i ∧ i < ws.length := by
  have hlen : 0 < ws.length := List.length_pos.mpr hne
  have htot : (cumWeights ws).getLastD 0 = ws.sum := by
    simpa using accumulate_getLastD ws hne 0
  refine ⟨bisectRight (cumWeights ws) (u * (ws.sum : ℚ)) 0 (ws.length - 1), ?_, ?_⟩
  · simp only [choicesIndex, List.isEmpty_iff]
    rw [if_neg hne, htot, if_neg (by omega)]
  · have := (bisectGo_bounds (cumWeights ws) (u * (ws.sum : ℚ))
      (ws.length - 1 - 0) 0 (ws.length - 1) (Nat.zero_le _)).2
    unfold bisectRight
    omega

theorem choicesIndex_interval (ws : List Int) (u : ℚ) (hne : ws ≠ [])
    (hw : ∀ w ∈ ws, 0 ≤ w) (hsum : 0 < ws.sum) (hu0 : 0 ≤ u) (hu1 : u < 1) :
    ∃ i, choicesIndex ws u = .ok i ∧ i < ws.length ∧
      (((ws.take i).sum : Int) : ℚ) ≤ u * (ws.sum : ℚ) ∧
      u * (ws.sum : ℚ) < (((ws.take (i + 1)).sum : Int) : ℚ) := by
  have hlen : 0 < ws.length := List.length_pos.mpr hne
  rcases choicesIndex_ok ws u hne hsum with ⟨i, hok, hilt⟩
  set x : ℚ := u * (ws.sum : ℚ) with hx
  have hcumlen : (cumWeights ws).length = ws.length := accumulate_length ws 0
  have hcget : ∀ j, j < ws.length → (cumWeights ws).getD j 0 = (ws.take (j + 1)).sum := by
    intro j hj
    simpa using accumulate_getD ws 0 j hj
  have hmono : ∀ a b, a ≤ b → b < (cumWeights ws).length →
      (cumWeights ws).getD a 0 ≤ (cumWeights ws).getD b 0 := by
    intro a b hab hb
    rw [hcumlen] at hb
    rw [hcget a (by omega), hcget b hb]
    exact sum_take_mono ws hw (a + 1) (b + 1) (by omega)
  have hx0 : 0 ≤ x := by
    have : (0 : ℚ) ≤ (ws.sum : ℚ) := by exact_mod_cast le_of_lt hsum
    exact mul_nonneg hu0 this
  have hxlt : x < ((ws.sum : Int) : ℚ) := by
    have hpos : (0 : ℚ) < (ws.sum : ℚ) := by exact_mod_cast hsum
    calc x = u * (ws.sum : ℚ) := hx
      _ < 1 * (ws.sum : ℚ) := by exact mul_lt_mul_of_pos_right hu1 hpos
      _ = ((ws.sum : Int) : ℚ) := by ring
  have hhi : x < (((cumWeights ws).getD (ws.length - 1) 0 : Int) : ℚ) := by
    rw [hcget (ws.length - 1) (by omega)]
    rw [Nat.sub_add_cancel (by omega), List.take_length]
    exact hxlt
  have hspec := bisectGo_sorted_spec (cumWeights ws) x hmono
    (ws.length - 1 - 0) 0 (ws.length - 1) (Nat.le_refl _) (Nat.zero_le _)
    (by omega) (by intro j hj; omega) hhi
  have hres : bisectRight (cumWeights ws) x 0 (ws.length - 1) = i := by
    have : choicesIndex ws u = .ok (bisectRight (cumWeights ws) x 0 (ws.length - 1)) := by
      simp only [choicesIndex, List.isEmpty_iff]
      rw [if_neg hne]
      have htot : (cumWeights ws).getLastD 0 = ws.sum := by
        simpa using accumulate_getLastD ws hne 0
      rw [htot, if_neg (by omega)]
    rw [this] at hok
    exact (Except.ok.injEq _ _).mp hok
  unfold bisectRight at hres
  rw [hres] at hspec
  refine ⟨i, hok, hilt, ?_, ?_⟩
  · cases i with
    | zero => simpa using hx0
    | succ n =>
      have := hspec.1 n (Nat.lt_succ_self n)
      rwa [hcget n (by omega)] at this
  · have := hspec.2
    rwa [hcget i hilt] at this

theorem interval_chosen_pos (ws : List Int) (i : Nat) (hi : i < ws.length)
    {x : ℚ} (h1 : (((ws.take i).sum : Int) : ℚ) ≤ x)
    (h2 : x < (((ws.take (i + 1)).sum : Int) : ℚ)) : 0 < ws[i] := by
  by_contra hcon
  push_neg at hcon
  have hstep : (ws.take (i + 1)).sum = (ws.take i).sum + ws[i] :=
    List.sum_take_succ ws i hi
  have : (((ws.take (i + 1)).sum : Int) : ℚ) ≤ (((ws.take i).sum : Int) : ℚ) := by
    rw [hstep]
    push_cast
    have : ((ws[i] : Int) : ℚ) ≤ 0 := by exact_mod_cast hcon
    linarith
  linarith

theorem interval_unique (ws : List Int) (hw : ∀ w ∈ ws, 0 ≤ w) {x : ℚ}
    {i j : Nat}
    (h1 : (((ws.take i).sum : Int) : ℚ) ≤ x)
    (h2 : x < (((ws.take (i + 1)).sum : Int) : ℚ))
    (h3 : (((ws.take j).sum : Int) : ℚ) ≤ x)
    (h4 : x < (((ws.take (j + 1)).sum : Int) : ℚ)) : i = j := by
  by_contra hne
  rcases Nat.lt_or_ge i j with hlt | hge
  · have : (ws.take (i + 1)).sum ≤ (ws.take j).sum :=
      sum_take_mono ws hw (i + 1) j (by omega)
    have hc : (((ws.take (i + 1)).sum : Int) : ℚ) ≤ (((ws.take j).sum : Int) : ℚ) := by
      exact_mod_cast this
    linarith
  · have hlt2 : j < i := by omega
    have : (ws.take (j + 1)).sum ≤ (ws.take i).sum :=
      sum_take_mono ws hw (j + 1) i (by omega)
    have hc : (((ws.take (j + 1)).sum : Int) : ℚ) ≤ (((ws.take i).sum : Int) : ℚ) := by
      exact_mod_cast this
    linarith


/-! ### Selection-loop lemmas -/

theorem weights_nonneg_of_map (pool : List CityConfig)
    (hw : ∀ c ∈ pool, 0 ≤ c.weight) :
    ∀ w ∈ pool.map (·.weight), 0 ≤ w := by
  intro w hwmem
  rcases List.mem_map.mp hwmem with ⟨c, hc, rfl⟩
  exact hw c hc

theorem select_go_spec :
    ∀ (k : Nat) (pool : List CityConfig) (u : Nat → ℚ) (j : Nat),
      (∀ c ∈ pool, 1 ≤ c.weight) →
      ((pool.map (·.id)).Nodup) →
      k ≤ pool.length →
      ∃ l, select_daily_cities_go k pool (pool.map (·.weight)) u j = .ok l ∧
        l.length = k ∧ (l.map (·.id)).Nodup ∧ ∀ c ∈ l, c ∈ pool := by
  intro k
  induction k with
  | zero =>
    intro pool u j _ _ _
    exact ⟨[], rfl, rfl, List.nodup_nil, by intro c hc; simp at hc⟩
  | succ k ih =>
    intro pool u j hw hnodup hk
    have hpne : pool ≠ [] := by
      intro hcon
      rw [hcon] at hk
      simp at hk
    have hwsne : pool.map (·.weight) ≠ [] := by
      simpa [List.map_eq_nil_iff] using hpne
    have hw0 : ∀ w ∈ pool.map (·.weight), 0 ≤ w :=
      weights_nonneg_of_map pool (fun c hc => le_trans (by decide) (hw c hc))
    have hex : ∃ w ∈ pool.map (·.weight), 0 < w := by
      rcases List.exists_mem_of_ne_nil pool hpne with ⟨c, hc⟩
      exact ⟨c.weight, List.mem_map_of_mem _ hc, lt_of_lt_of_le (by decide) (hw c hc)⟩
    have hsum : 0 < (pool.map (·.weight)).sum := sum_pos_of_exists _ hw0 hex
    rcases choicesIndex_ok (pool.map (·.weight)) (u j) hwsne hsum with ⟨i, hok, hilt⟩
    rw [List.length_map] at hilt
    have hchosen : pool.getD i defaultCity = pool[i] := getD_eq_getElem pool i defaultCity hilt
    set chosen := pool.getD i defaultCity with hchdef
    have hchosenmem : chosen ∈ pool := by
      rw [hchosen]; exact pool.getElem_mem hilt
    set idx := pool.findIdx (fun c => decide (c = chosen)) with hidxdef
    have hidx : idx < pool.length :=
      List.findIdx_lt_length_of_exists ⟨chosen, hchosenmem, by simp⟩
    have hatidx : pool[idx] = chosen :=
      of_decide_eq_true (List.findIdx_getElem (w := hidx))
    have hlen' : (pool.eraseIdx idx).length = pool.length - 1 :=
      List.length_eraseIdx_of_lt hidx
    have hmap' : (pool.eraseIdx idx).map (·.weight) = (pool.map (·.weight)).eraseIdx idx :=
      map_eraseIdx _ pool idx
    have hw' : ∀ c ∈ pool.eraseIdx idx, 1 ≤ c.weight :=
      fun c hc => hw c (List.eraseIdx_subset pool idx hc)
    have hnodup' : ((pool.eraseIdx idx).map (·.id)).Nodup := by
      rw [map_eraseIdx]
      exact List.Sublist.nodup (List.eraseIdx_sublist _ idx) hnodup
    have hk' : k ≤ (pool.eraseIdx idx).length := by omega
    rcases ih (pool.eraseIdx idx) u (j + 1) hw' hnodup' hk' with
      ⟨rest, hrest, hlenr, hnodupr, hsubr⟩
    rw [hmap'] at hrest
    refine ⟨chosen :: rest, ?_, by simp [hlenr], ?_, ?_⟩
    · simp only [select_daily_cities_go, hok]
      rw [← hchdef, ← hidxdef, hrest]
    · simp only [List.map_cons, List.nodup_cons]
      refine ⟨?_, hnodupr⟩
      intro hmem
      rcases List.mem_map.mp hmem with ⟨c, hc, hcid⟩
      have hcid2 : c.id ∈ (pool.eraseIdx idx).map (·.id) :=
        List.mem_map_of_mem _ (hsubr c hc)
      rw [map_eraseIdx] at hcid2
      have hidxm : idx < (pool.map (·.id)).length := by simpa using hidx
      have hgetmap : (pool.map (·.id))[idx] = chosen.id := by
        simp [hatidx]
      have hnot : (pool.map (·.id))[idx] ∉ (pool.map (·.id)).eraseIdx idx :=
        not_mem_eraseIdx_of_nodup _ hnodup idx hidxm
      rw [hgetmap] at hnot
      rw [hcid] at hcid2
      exact hnot hcid2
    · intro c hc
      rcases List.mem_cons.mp hc with rfl | hc2
      · exact hchosenmem
      · exact List.eraseIdx_subset pool idx (hsubr c hc2)

theorem select_go_pos_spec :
    ∀ (k : Nat) (pool : List CityConfig) (u : Nat → ℚ) (j : Nat),
      (∀ c ∈ pool, 0 ≤ c.weight) →
      (∀ m, 0 ≤ u m ∧ u m < 1) →
      k ≤ (pool.filter (fun c => decide (0 < c.weight))).length →
      ∃ l, select_daily_cities_go k pool (pool.map (·.weight)) u j = .ok l ∧
        l.length = k ∧ ∀ c ∈ l, c ∈ pool ∧ 0 < c.weight := by
  intro k
  induction k with
  | zero =>
    intro pool u j _ _ _
    exact ⟨[], rfl, rfl, by intro c hc; simp at hc⟩
  | succ k ih =>
    intro pool u j hw hu hk
    have hfne : pool.filter (fun c => decide (0 < c.weight)) ≠ [] := by
      intro hcon
      rw [hcon] at hk
      simp at hk
    rcases List.exists_mem_of_ne_nil _ hfne with ⟨cpos, hcpos⟩
    have hcpos2 := List.mem_filter.mp hcpos
    have hpne : pool ≠ [] := by
      intro hcon
      rw [hcon] at hcpos2
      simp at hcpos2
    have hwsne : pool.map (·.weight) ≠ [] := by
      simpa [List.map_eq_nil_iff] using hpne
    have hw0 : ∀ w ∈ pool.map (·.weight), 0 ≤ w := weights_nonneg_of_map pool hw
    have hex : ∃ w ∈ pool.map (·.weight), 0 < w :=
      ⟨cpos.weight, List.mem_map_of_mem _ hcpos2.1, of_decide_eq_true hcpos2.2⟩
    have hsum : 0 < (pool.map (·.weight)).sum := sum_pos_of_exists _ hw0 hex
    rcases choicesIndex_interval (pool.map (·.weight)) (u j) hwsne hw0 hsum
      (hu j).1 (hu j).2 with ⟨i, hok, hilt, hint1, hint2⟩
    have hilt2 : i < pool.length := by simpa using hilt
    have hwi := interval_chosen_pos (pool.map (·.weight)) i hilt hint1 hint2
    have hchosen : pool.getD i defaultCity = pool[i] := getD_eq_getElem pool i defaultCity hilt2
    set chosen := pool.getD i defaultCity with hchdef
    have hchosenmem : chosen ∈ pool := by
      rw [hchosen]; exact pool.getElem_mem hilt2
    have hchw : 0 < chosen.weight := by
      rw [hchosen]
      simpa using hwi
    set idx := pool.findIdx (fun c => decide (c = chosen)) with hidxdef
    have hidx : idx < pool.length :=
      List.findIdx_lt_length_of_exists ⟨chosen, hchosenmem, by simp⟩
    have hmap' : (pool.eraseIdx idx).map (·.weight) = (pool.map (·.weight)).eraseIdx idx :=
      map_eraseIdx _ pool idx
    have hw' : ∀ c ∈ pool.eraseIdx idx, 0 ≤ c.weight :=
      fun c hc => hw c (List.eraseIdx_subset pool idx hc)
    have hk' : k ≤ ((pool.eraseIdx idx).filter (fun c => decide (0 < c.weight))).length := by
      have := filter_length_eraseIdx (fun c => decide (0 < c.weight)) pool idx
      omega
    rcases ih (pool.eraseIdx idx) u (j + 1) hw' hu hk' with
      ⟨rest, hrest, hlenr, hsubr⟩
    rw [hmap'] at hrest
    refine ⟨chosen :: rest, ?_, by simp [hlenr], ?_⟩
    · simp only [select_daily_cities_go, hok]
      rw [← hchdef, ← hidxdef, hrest]
    · intro c hc
      rcases List.mem_cons.mp hc with rfl | hc2
      · exact ⟨hchosenmem, hchw⟩
      · exact ⟨List.eraseIdx_subset pool idx (hsubr c hc2).1, (hsubr c hc2).2⟩


/-! ### State-manager lemmas -/

theorem normalizeUtc_ts (d : Datetime) : d.normalizeUtc.ts = d.ts := by
  unfold Datetime.normalizeUtc
  split <;> rfl

theorem tolerance_iff (a b tol : Int) :
    (|((a - b : Int) : ℚ)| / 60 ≤ (tol : ℚ)) ↔ |a - b| ≤ 60 * tol := by
  rw [div_le_iff₀ (by norm_num : (0 : ℚ) < 60), ← Int.cast_abs,
    show (tol : ℚ) * 60 = ((60 * tol : Int) : ℚ) by push_cast; ring]
  exact Int.cast_le

theorem needsPostingEntries_eq_find (l : List ScheduleEntry) (cid : String)
    (t : Datetime) (tol : Int) :
    needsPostingEntries l cid t tol =
      match l.find? (fun e => e.city_id == cid) with
      | none => false
      | some e => !e.posted &&
          decide (|((t.normalizeUtc.ts - e.posting_time_utc.normalizeUtc.ts : Int) : ℚ)| / 60
            ≤ (tol : ℚ)) := by
  induction l with
  | nil => rfl
  | cons e es ih =>
    by_cases h : e.city_id == cid
    · simp only [needsPostingEntries, List.find?_cons, h, if_pos, cond_true]
      cases hp : e.posted <;> simp [hp]
    · simp only [needsPostingEntries, List.find?_cons, h, cond_false, if_neg, Bool.false_eq_true,
        not_false_eq_true]
      exact ih

theorem needsPostingEntries_mark (l : List ScheduleEntry) (cid : String)
    (t : Datetime) (tol : Int) :
    needsPostingEntries (markPostedEntries l cid) cid t tol = false := by
  induction l with
  | nil => rfl
  | cons e es ih =>
    by_cases h : (e.city_id == cid) = true
    · simp [markPostedEntries, needsPostingEntries, h]
    · simp only [markPostedEntries]
      rw [if_neg h]
      simp only [needsPostingEntries]
      rw [if_neg h]
      exact ih

theorem markPostedEntries_frame (cid : String) :
    ∀ l : List ScheduleEntry,
      (markPostedEntries l cid).length = l.length ∧
      (∀ i, i ≠ l.findIdx (fun e => e.city_id == cid) →
        (markPostedEntries l cid)[i]? = l[i]?) ∧
      (∀ e, l[l.findIdx (fun e2 => e2.city_id == cid)]? = some e →
        (markPostedEntries l cid)[l.findIdx (fun e2 => e2.city_id == cid)]? =
          some { e with posted := true }) ∧
      ((∀ e ∈ l, ¬ e.city_id = cid) → markPostedEntries l cid = l) := by
  intro l
  induction l with
  | nil =>
    refine ⟨rfl, ?_, ?_, fun _ => rfl⟩
    · intro i _; rfl
    · intro e h; simp at h
  | cons a l ih =>
    by_cases h : (a.city_id == cid) = true
    · have hidx : (a :: l).findIdx (fun e => e.city_id == cid) = 0 := by
        simp [List.findIdx_cons, h]
      have hmk : markPostedEntries (a :: l) cid = { a with posted := true } :: l := by
        simp only [markPostedEntries]
        rw [if_pos h]
      refine ⟨by simp [hmk], ?_, ?_, ?_⟩
      · intro i hi
        rw [hidx] at hi
        match i, hi with
        | i + 1, _ => simp [hmk]
      · intro e he
        rw [hidx] at he ⊢
        simp only [List.getElem?_cons_zero, Option.some.injEq] at he
        subst he
        simp [hmk]
      · intro habs
        exact absurd (eq_of_beq h) (habs a (List.mem_cons_self a l))
    · have hidx : (a :: l).findIdx (fun e => e.city_id == cid) =
          l.findIdx (fun e => e.city_id == cid) + 1 := by
        simp [List.findIdx_cons, h]
      have hmk : markPostedEntries (a :: l) cid = a :: markPostedEntries l cid := by
        simp only [markPostedEntries]
        rw [if_neg h]
      rcases ih with ⟨ih1, ih2, ih3, ih4⟩
      refine ⟨by simp [hmk, ih1], ?_, ?_, ?_⟩
      · intro i hi
        rw [hidx] at hi
        match i with
        | 0 => simp [hmk]
        | i + 1 =>
          rw [hmk]
          simp only [List.getElem?_cons_succ]
          exact ih2 i (by omega)
      · intro e he
        rw [hidx] at he ⊢
        rw [hmk]
        simp only [List.getElem?_cons_succ] at he ⊢
        exact ih3 e he
      · intro habs
        have hrec : markPostedEntries l cid = l :=
          ih4 (fun e he => habs e (List.mem_cons_of_mem a he))
        rw [hmk, hrec]

theorem filter_length_partition {α : Type} (p : α → Bool) :
    ∀ l : List α, (l.filter p).length + (l.filter (fun a => !p a)).length = l.length := by
  intro l
  induction l with
  | nil => rfl
  | cons a l ih =>
    by_cases h : p a <;> simp [List.filter_cons, h, Nat.succ_eq_add_one] <;> omega


/-! ## Claim theorems -/

/-- Claim C2: `needs_posting(city_id, current_time, tolerance_minutes)` returns
true iff an entry for that city id exists in the schedule (the first matching
entry), its `posted` flag is false, and the absolute difference between the
current time and the entry scheduled time is at most `tolerance_minutes`
minutes (both normalized to UTC-aware before subtracting); in particular it is
false whenever the city is absent from the schedule, and false for all times
after `mark_posted(city_id)`. -/
theorem needs_posting_spec (s : DailySchedule) (cid : String) (t : Datetime) (tol : Int) :
    (s.needs_posting cid t tol = true ↔
      ∃ e, s.selected_cities.find? (fun e2 => e2.city_id == cid) = some e ∧
        e.posted = false ∧ |t.ts - e.posting_time_utc.ts| ≤ 60 * tol) ∧
    ((∀ e ∈ s.selected_cities, ¬ e.city_id = cid) → s.needs_posting cid t tol = false) ∧
    ((s.mark_posted cid).needs_posting cid t tol = false) := by
  refine ⟨?_, ?_, ?_⟩
  · unfold DailySchedule.needs_posting
    rw [needsPostingEntries_eq_find]
    cases hf : s.selected_cities.find? (fun e2 => e2.city_id == cid) with
    | none => simp
    | some e =>
      simp only [Bool.and_eq_true, Bool.not_eq_true', decide_eq_true_eq,
        Option.some.injEq]
      rw [normalizeUtc_ts, normalizeUtc_ts, tolerance_iff]
      constructor
      · rintro ⟨h1, h2⟩
        exact ⟨e, rfl, h1, h2⟩
      · rintro ⟨e2, he2, h1, h2⟩
        cases he2
        exact ⟨h1, h2⟩
  · intro habs
    unfold DailySchedule.needs_posting
    rw [needsPostingEntries_eq_find]
    have hnone : s.selected_cities.find? (fun e2 => e2.city_id == cid) = none :=
      List.find?_eq_none.mpr (fun e he => by simpa using habs e he)
    rw [hnone]
  · exact needsPostingEntries_mark s.selected_cities cid t tol

/-- Claim C3: when the persisted schedule parses and its date equals the
current UTC calendar date, `get_or_create_schedule` returns it unmodified and
performs no write; hence two calls on the same UTC day — with any
configuration, random stream, or clock details — return the identical
schedule. -/
theorem get_or_create_schedule_same_day (input : LoadInput) (s : DailySchedule)
    (today_date : String)
    (hload : load_schedule input = .ok (some s))
    (hday : s.is_current_day today_date = true) :
    ∀ (config config2 : Config) (now_iso now2 : String) (mid mid2 : Int)
      (u u2 : Nat → ℚ) (wk wk2 : Bool),
      get_or_create_schedule input config today_date now_iso mid u wk = .ok (s, none) ∧
      get_or_create_schedule input config2 today_date now2 mid2 u2 wk2 = .ok (s, none) := by
  intro config config2 now_iso now2 mid mid2 u u2 wk wk2
  constructor <;>
    · simp only [get_or_create_schedule, hload]
      rw [if_pos hday]

theorem get_or_create_schedule_same_day_witness :
    load_schedule (LoadInput.parsed demoJson) = .ok (some demoSchedule) ∧
    demoSchedule.is_current_day "2026-10-12" = true ∧
    get_or_create_schedule (LoadInput.parsed demoJson) demoConfig "2026-10-12"
      "2026-10-12T09:00:00+00:00" 0 (fun _ => 0) true = .ok (demoSchedule, none) := by
  refine ⟨by rfl, by rfl, ?_⟩
  exact (get_or_create_schedule_same_day (LoadInput.parsed demoJson) demoSchedule
    "2026-10-12" (by rfl) (by rfl) demoConfig demoConfig
    "2026-10-12T09:00:00+00:00" "x" 0 0 (fun _ => 0) (fun _ => 0) true true).1

/-- Claim C5: requesting strictly more cities than there are enabled cities
makes `select_daily_cities` raise the `ValueError`-class configuration error
and return no selection. -/
theorem select_daily_cities_insufficient (config : Config) (num_cities : Nat)
    (u : Nat → ℚ) (h : config.get_enabled_cities.length < num_cities) :
    select_daily_cities config num_cities u =
      .error "Cannot select cities: not enough enabled cities available" := by
  simp only [select_daily_cities]
  rw [if_pos h]

theorem select_daily_cities_insufficient_witness :
    demoConfig.get_enabled_cities.length < 4 ∧
    select_daily_cities demoConfig 4 (fun _ => 0) =
      .error "Cannot select cities: not enough enabled cities available" :=
  ⟨by decide, select_daily_cities_insufficient demoConfig 4 (fun _ => 0) (by decide)⟩

/-- Claim C6: `cleanup_old` with a 24-hour retention removes exactly the
records strictly older than `now_utc − 24h`, retains every other record
unchanged and in order, and returns the count removed; afterwards
`get_excluded_ids` returns the identifiers of all retained records. -/
theorem cleanup_old_spec (records : List PostedRecord) (now_utc : Int) :
    (cleanup_old records now_utc 24).1 =
      records.filter (fun r => decide (now_utc - 24 * 3600 ≤ r.posted_at)) ∧
    List.Sublist (cleanup_old records now_utc 24).1 records ∧
    (∀ r ∈ records, r.posted_at < now_utc - 24 * 3600 →
      r ∉ (cleanup_old records now_utc 24).1) ∧
    (∀ r ∈ records, now_utc - 24 * 3600 ≤ r.posted_at →
      r ∈ (cleanup_old records now_utc 24).1) ∧
    (cleanup_old records now_utc 24).2 + (cleanup_old records now_utc 24).1.length
      = records.length ∧
    get_excluded_ids (cleanup_old records now_utc 24).1 =
      (cleanup_old records now_utc 24).1.map (·.city_id) := by
  have hfe : (fun r : PostedRecord => !decide (r.posted_at < now_utc - 24 * 3600)) =
      (fun r : PostedRecord => decide (now_utc - 24 * 3600 ≤ r.posted_at)) := by
    funext r
    by_cases h : r.posted_at < now_utc - 24 * 3600
    · have h2 : ¬ (now_utc - 24 * 3600 ≤ r.posted_at) := by omega
      rw [decide_eq_true h, decide_eq_false h2]
      rfl
    · have h2 : now_utc - 24 * 3600 ≤ r.posted_at := by omega
      rw [decide_eq_false h, decide_eq_true h2]
      rfl
  have h1 : (cleanup_old records now_utc 24).1 =
      records.filter (fun r => decide (now_utc - 24 * 3600 ≤ r.posted_at)) := by
    simp only [cleanup_old]
    rw [hfe]
  refine ⟨h1, ?_, ?_, ?_, ?_, rfl⟩
  · rw [h1]; exact List.filter_sublist records
  · intro r _ hold hmem
    rw [h1] at hmem
    have := (List.mem_filter.mp hmem).2
    simp only [decide_eq_true_eq] at this
    omega
  · intro r hr hle
    rw [h1]
    exact List.mem_filter.mpr ⟨hr, by simpa using hle⟩
  · have := filter_length_partition
      (fun r : PostedRecord => decide (r.posted_at < now_utc - 24 * 3600)) records
    simp only [cleanup_old]
    omega

/-- Claim C8 (code bug): the source catches only
`JSONDecodeError`/`KeyError`/`IOError` around the read, so a state file
whose top-level JSON value is not an object — e.g. `[]`, valid JSON —
reaches `data["date"]` and raises an uncaught `TypeError`, which
`get_or_create_schedule` propagates, instead of the `None` return that the
claim, the function's own docstring ("None otherwise") and the spec's
never-fatal StateLoadError taxonomy promise.  The true parts hold: missing
files, undecodable content and key-missing objects give `None` (after which
a fresh schedule is generated), and a write failure in `save_schedule`
re-raises the I/O error. -/
theorem load_save_failure_semantics :
    load_schedule LoadInput.missing = .ok none ∧
    load_schedule LoadInput.invalidJson = .ok none ∧
    (∀ fields, jlookup fields "date" = none →
      load_schedule (LoadInput.parsed (JVal.obj fields)) = .ok none) ∧
    load_schedule (LoadInput.parsed (JVal.arr [])) = .error "TypeError" ∧
    get_or_create_schedule (LoadInput.parsed (JVal.arr [])) demoConfig "2026-10-12"
      "2026-10-12T09:00:00+00:00" 0 (fun _ => 0) true = .error "TypeError" ∧
    (∀ (input : LoadInput) (config : Config) (today now_iso : String) (mid : Int)
        (u : Nat → ℚ) (wk : Bool), load_schedule input = .ok none →
      get_or_create_schedule input config today now_iso mid u wk =
        generate_schedule config today now_iso mid u wk) ∧
    (∀ s, save_schedule false s = Except.error "IOError") ∧
    (∀ s, save_schedule true s = Except.ok ()) := by
  refine ⟨rfl, rfl, ?_, rfl, rfl, ?_, fun _ => rfl, fun _ => rfl⟩
  · intro fields h
    simp only [load_schedule, h]
  · intro input config today now_iso mid u wk h
    simp only [get_or_create_schedule, h]

/-- Claim C10: `mark_posted(city_id)` changes at most the `posted` field of
the first entry whose `city_id` matches, leaving the date, the generation
timestamp, every other entry, and the matching entry remaining fields
unchanged; when no entry matches, the schedule is completely unchanged. -/
theorem mark_posted_frame (s : DailySchedule) (cid : String) :
    (s.mark_posted cid).date = s.date ∧
    (s.mark_posted cid).generation_timestamp = s.generation_timestamp ∧
    (s.mark_posted cid).selected_cities.length = s.selected_cities.length ∧
    (∀ i, i ≠ s.selected_cities.findIdx (fun e => e.city_id == cid) →
      (s.mark_posted cid).selected_cities[i]? = s.selected_cities[i]?) ∧
    (∀ e, s.selected_cities[s.selected_cities.findIdx (fun e2 => e2.city_id == cid)]?
        = some e →
      (s.mark_posted cid).selected_cities[s.selected_cities.findIdx
          (fun e2 => e2.city_id == cid)]? = some { e with posted := true }) ∧
    ((∀ e ∈ s.selected_cities, ¬ e.city_id = cid) → s.mark_posted cid = s) := by
  obtain ⟨h1, h2, h3, h4⟩ := markPostedEntries_frame cid s.selected_cities
  refine ⟨rfl, rfl, h1, h2, h3, ?_⟩
  intro habs
  unfold DailySchedule.mark_posted
  rw [h4 habs]


/-- Claim C1: for a configuration whose enabled pool is non-empty (weights in
the 1–100 data-model range, ids unique as dict keys) and any
`1 ≤ k ≤ size`, `select_daily_cities` succeeds and returns exactly `k`
pairwise-distinct candidates, each drawn from the enabled pool, by
sequential weighted sampling without replacement. -/
theorem select_daily_cities_without_replacement (config : Config) (k : Nat)
    (u : Nat → ℚ)
    (hw : ∀ c ∈ config.get_enabled_cities, 1 ≤ c.weight)
    (hnodup : (config.get_enabled_cities.map (·.id)).Nodup)
    (_hk1 : 1 ≤ k) (hk : k ≤ config.get_enabled_cities.length) :
    ∃ l, select_daily_cities config k u = .ok l ∧ l.length = k ∧ l.Nodup ∧
      (l.map (·.id)).Nodup ∧ ∀ c ∈ l, c ∈ config.get_enabled_cities := by
  rcases select_go_spec k config.get_enabled_cities u 0 hw hnodup hk with
    ⟨l, hgo, hlen, hnd, hsub⟩
  refine ⟨l, ?_, hlen, hnd.of_map, hnd, hsub⟩
  simp only [select_daily_cities]
  rw [if_neg (by omega)]
  exact hgo

theorem select_daily_cities_without_replacement_witness :
    (∀ c ∈ demoConfig.get_enabled_cities, 1 ≤ c.weight) ∧
    (demoConfig.get_enabled_cities.map (·.id)).Nodup ∧
    1 ≤ 2 ∧ 2 ≤ demoConfig.get_enabled_cities.length ∧
    ∃ l, select_daily_cities demoConfig 2 (fun _ => 1 / 2) = .ok l ∧ l.length = 2 ∧
      l.Nodup ∧ (l.map (·.id)).Nodup ∧ ∀ c ∈ l, c ∈ demoConfig.get_enabled_cities :=
  ⟨by decide, by decide, by decide, by decide,
    select_daily_cities_without_replacement demoConfig 2 (fun _ => 1 / 2)
      (by decide) (by decide) (by decide) (by decide)⟩

theorem choicesIndex_pool_ok (pool : List CityConfig) (u : ℚ) (hne : pool ≠ [])
    (hw : ∀ c ∈ pool, 1 ≤ c.weight) :
    ∃ i, choicesIndex (pool.map (·.weight)) u = .ok i ∧ i < pool.length := by
  have hwsne : pool.map (·.weight) ≠ [] := by simpa [List.map_eq_nil_iff] using hne
  have hw0 : ∀ w ∈ pool.map (·.weight), 0 ≤ w :=
    weights_nonneg_of_map pool (fun c hc => le_trans (by decide) (hw c hc))
  have hex : ∃ w ∈ pool.map (·.weight), 0 < w := by
    rcases List.exists_mem_of_ne_nil pool hne with ⟨c, hc⟩
    exact ⟨c.weight, List.mem_map_of_mem _ hc, lt_of_lt_of_le (by decide) (hw c hc)⟩
  have hsum := sum_pos_of_exists _ hw0 hex
  rcases choicesIndex_ok _ u hwsne hsum with ⟨i, hok, hilt⟩
  exact ⟨i, hok, by simpa using hilt⟩

/-- Claim C7 (modelled from the spec): with at least one enabled candidate
(data-model weights), the single-pick selection never fails and never
returns nothing for any exclusion list: when the filtered pool (enabled
minus excluded) is empty it falls back to drawing from the full enabled
pool, and the returned candidate is always from the enabled pool. -/
theorem select_single_city_total (enabled : List CityConfig) (excluded : List String)
    (u : ℚ) (hne : enabled ≠ []) (hw : ∀ c ∈ enabled, 1 ≤ c.weight) :
    ∃ c, select_single_city enabled excluded u = some c ∧ c ∈ enabled := by
  by_cases hemp : (enabled.filter (fun c => !excluded.contains c.id)).isEmpty = true
  · rcases choicesIndex_pool_ok enabled u hne hw with ⟨i, hok, hilt⟩
    refine ⟨enabled.getD i defaultCity, ?_, ?_⟩
    · simp only [select_single_city]
      rw [if_pos hemp, hok]
    · rw [getD_eq_getElem enabled i defaultCity hilt]
      exact enabled.getElem_mem hilt
  · have hfne : enabled.filter (fun c => !excluded.contains c.id) ≠ [] := by
      simpa [List.isEmpty_iff] using hemp
    have hwf : ∀ c ∈ enabled.filter (fun c => !excluded.contains c.id), 1 ≤ c.weight :=
      fun c hc => hw c (List.mem_of_mem_filter hc)
    rcases choicesIndex_pool_ok (enabled.filter (fun c => !excluded.contains c.id)) u
      hfne hwf with ⟨i, hok, hilt⟩
    refine ⟨(enabled.filter (fun c => !excluded.contains c.id)).getD i defaultCity, ?_, ?_⟩
    · simp only [select_single_city]
      rw [if_neg hemp, hok]
    · rw [getD_eq_getElem _ i defaultCity hilt]
      exact List.mem_of_mem_filter
        ((enabled.filter (fun c => !excluded.contains c.id)).getElem_mem hilt)

theorem select_single_city_total_witness :
    (demoConfig.get_enabled_cities ≠ []) ∧
    (∀ c ∈ demoConfig.get_enabled_cities, 1 ≤ c.weight) ∧
    ∃ c, select_single_city demoConfig.get_enabled_cities ["tokyo", "paris", "oslo"]
        (1 / 2) = some c ∧ c ∈ demoConfig.get_enabled_cities :=
  ⟨by decide, by decide,
    select_single_city_total demoConfig.get_enabled_cities ["tokyo", "paris", "oslo"]
      (1 / 2) (by decide) (by decide)⟩

unseal Rat.mul Rat.add Rat.sub Rat.inv in
/-- Claim C9 counterexample: weights `[5, 0]` with `k = 2` (so
`1 ≤ k ≤ size`, one relevant weight) leave the second draw a working pool
of total weight 0, and weights `[5, -5]` with `k = 1` — `k` no larger than
the number of positive-weight candidates — make the very first total 0; in
both cases `random.choices` rejects the draw with `ValueError`, so the pool
is not accepted without raising. -/
theorem select_daily_cities_nonpositive_weight_raises :
    select_daily_cities zeroWeightConfig 2 (fun _ => 1 / 2) =
      Except.error "Total of weights must be greater than zero" ∧
    select_daily_cities negWeightConfig 1 (fun _ => 1 / 2) =
      Except.error "Total of weights must be greater than zero" :=
  ⟨by rfl, by rfl⟩

/-- Claim C9 (amended): the algorithm does not validate weights, and a
non-positive weight is harmless only in the zero case: when every weight is
`≥ 0` and `k` is at most the number of positive-weight candidates,
`select_daily_cities` does not raise, a candidate with weight 0 behaves as
having zero probability of being drawn (it is never selected), and every
positive-weight candidate remains drawable (for `k = 1` some random value
selects it).  A negative weight can drive a working pool's total to zero or
below, which raises `ValueError` even for `k = 1`; with zero weights the
same happens once `k` exceeds the number of positive-weight candidates
(both raised in the counterexample theorem). -/
theorem select_daily_cities_nonneg_weights (config : Config) (k : Nat) (u : Nat → ℚ)
    (hw : ∀ c ∈ config.get_enabled_cities, 0 ≤ c.weight)
    (hu : ∀ m, 0 ≤ u m ∧ u m < 1)
    (_hk1 : 1 ≤ k)
    (hk : k ≤ (config.get_enabled_cities.filter (fun c => decide (0 < c.weight))).length) :
    (∃ l, select_daily_cities config k u = .ok l ∧ l.length = k ∧
      ∀ c ∈ l, c ∈ config.get_enabled_cities ∧ 0 < c.weight) ∧
    (∀ c ∈ config.get_enabled_cities, 0 < c.weight →
      ∃ v : ℚ, select_daily_cities config 1 (fun _ => v) = .ok [c]) := by
  constructor
  · rcases select_go_pos_spec k config.get_enabled_cities u 0 hw hu hk with
      ⟨l, hgo, hlen, hprop⟩
    refine ⟨l, ?_, hlen, hprop⟩
    have hfl := List.length_filter_le (fun c => decide (0 < c.weight))
      config.get_enabled_cities
    simp only [select_daily_cities]
    rw [if_neg (by omega)]
    exact hgo
  · intro c hc hcw
    rcases List.mem_iff_getElem.mp hc with ⟨i0, hi0lt, hi0⟩
    set ws : List Int := config.get_enabled_cities.map (·.weight) with hws
    have hw0 : ∀ w ∈ ws, 0 ≤ w := weights_nonneg_of_map _ hw
    have hwslen : ws.length = config.get_enabled_cities.length := by rw [hws]; simp
    have hwsne : ws ≠ [] := by
      rw [hws]
      simpa [List.map_eq_nil_iff] using List.ne_nil_of_mem hc
    have hsum : 0 < ws.sum := by
      refine sum_pos_of_exists _ hw0 ?_
      rw [hws]
      exact ⟨c.weight, List.mem_map_of_mem _ hc, hcw⟩
    have hi0lt2 : i0 < ws.length := by omega
    have hwsi0 : ws[i0] = c.weight := by
      simp only [hws, List.getElem_map]
      rw [hi0]
    have hstep : (ws.take (i0 + 1)).sum = (ws.take i0).sum + c.weight := by
      rw [List.sum_take_succ ws i0 (by omega), hwsi0]
    have htake_le : (ws.take (i0 + 1)).sum ≤ ws.sum := by
      have h := sum_take_mono ws hw0 (i0 + 1) ws.length (by omega)
      rwa [List.take_length] at h
    have hS_lt : (ws.take i0).sum < ws.sum := by omega
    have hsumq : (0 : ℚ) < (ws.sum : ℚ) := by exact_mod_cast hsum
    refine ⟨((ws.take i0).sum : ℚ) / (ws.sum : ℚ), ?_⟩
    set v : ℚ := ((ws.take i0).sum : ℚ) / (ws.sum : ℚ) with hv
    have hv0 : 0 ≤ v := by
      rw [hv]
      exact div_nonneg (by exact_mod_cast sum_take_nonneg ws hw0 i0) (le_of_lt hsumq)
    have hv1 : v < 1 := by
      rw [hv, div_lt_one hsumq]
      exact_mod_cast hS_lt
    have hx : v * (ws.sum : ℚ) = ((ws.take i0).sum : ℚ) := by
      rw [hv]
      exact div_mul_cancel₀ _ (ne_of_gt hsumq)
    rcases choicesIndex_interval ws v hwsne hw0 hsum hv0 hv1 with ⟨i, hok, hilt, h1, h2⟩
    rw [hx] at h1 h2
    have hup : (((ws.take i0).sum : Int) : ℚ) < (((ws.take (i0 + 1)).sum : Int) : ℚ) := by
      rw [hstep]
      push_cast
      have hq : (0 : ℚ) < (c.weight : ℚ) := by exact_mod_cast hcw
      linarith
    have hieq : i = i0 :=
      interval_unique ws hw0 (x := ((ws.take i0).sum : ℚ)) h1 h2 (le_refl _) hup
    have hguard : ¬ (config.get_enabled_cities.length < 1) := by omega
    simp only [select_daily_cities]
    rw [if_neg hguard, ← hws]
    simp only [select_daily_cities_go, hok]
    have hchosen : config.get_enabled_cities.getD i defaultCity = c := by
      rw [hieq, getD_eq_getElem _ i0 defaultCity hi0lt, hi0]
    rw [hchosen]

theorem select_daily_cities_nonneg_weights_witness :
    (∀ c ∈ zeroWeightConfig.get_enabled_cities, 0 ≤ c.weight) ∧
    (∀ m : Nat, 0 ≤ ((fun _ => (1 : ℚ) / 2) m : ℚ) ∧ ((fun _ => (1 : ℚ) / 2) m : ℚ) < 1) ∧
    1 ≤ 1 ∧
    1 ≤ (zeroWeightConfig.get_enabled_cities.filter (fun c => decide (0 < c.weight))).length ∧
    (∃ l, select_daily_cities zeroWeightConfig 1 (fun _ => (1 : ℚ) / 2) = .ok l ∧
      l.length = 1 ∧ ∀ c ∈ l, c ∈ zeroWeightConfig.get_enabled_cities ∧ 0 < c.weight) :=
  ⟨by decide, fun m => ⟨by norm_num, by norm_num⟩, by decide, by decide,
    (select_daily_cities_nonneg_weights zeroWeightConfig 1 (fun _ => (1 : ℚ) / 2)
      (by decide) (fun m => ⟨by norm_num, by norm_num⟩) (by decide) (by decide)).1⟩

unseal Rat.mul Rat.add Rat.sub Rat.inv in
/-- Claim C4: the source computes posting offsets in double precision.  For
five cities the code assigns index 1 the offset 4h47 = 287 minutes, while
`midnight + i * (24h / N)` rounded down to whole minutes — the claimed
assignment — gives `⌊1 * 1440 / 5⌋ = 288` minutes: the float evaluation
falls one minute short of the specified instant. -/
theorem calculate_posting_times_float_drift :
    calculate_posting_times fiveCities =
      [("tokyo", 0), ("paris", 287), ("london", 575), ("nyc", 863), ("sydney", 1151)] ∧
    specPostingMinutes 5 1 = 288 ∧ postingOffsetMinutes 5 1 = 287 ∧
    (287 : Int) ≠ 288 := by
  exact ⟨by decide, by decide, by decide, by decide⟩

